import Mathlib

/-!
Verification development for the antora-lunr-extension repository.

The definitions below are shallow embeddings of the JavaScript sources:
  * `src/lib/levenshtein_patricia_trie.js` (class `LevenshteinTrie`)
  * the client bundle (`LevenshteinTrieUser`, `buildHighlightedText`,
    `findTermPosition`, the search orchestrator in `src/data/js/index.js`)
  * `src/lib/generate-index.js` (`generateIndex`)

JavaScript strings are modelled as `List Char`, JS `Map`s as insertion-ordered
association lists, numbers holding distance budgets as `Int` (they may go
negative in the source), and the recursive trie search is given an explicit
fuel argument so that it is structurally recursive and kernel-evaluable; the
fuel chosen by the public wrapper strictly dominates the recursion measure
(subtree size lexicographically with remaining query positions), and every
theorem below is either proved for all fuel values or only needs a lower bound
on the fuel that the wrapper obviously satisfies.
-/

namespace AntoraLunr

/-! ### Trie data model — `TrieNode` from src/lib/levenshtein_patricia_trie.js

`constructor () { this.children = new Map(); this.isEndOfWord = false; this.data = [] }`
-/

inductive TrieNode : Type where
  | mk (children : List (Char × TrieNode)) (isEndOfWord : Bool) (data : List Nat)

def TrieNode.children : TrieNode → List (Char × TrieNode)
  | .mk c _ _ => c

def TrieNode.isEndOfWord : TrieNode → Bool
  | .mk _ e _ => e

def TrieNode.data : TrieNode → List Nat
  | .mk _ _ d => d

@[simp] theorem TrieNode.children_mk (l : List (Char × TrieNode)) (e : Bool) (d : List Nat) :
    (TrieNode.mk l e d).children = l := rfl

@[simp] theorem TrieNode.isEndOfWord_mk (l : List (Char × TrieNode)) (e : Bool) (d : List Nat) :
    (TrieNode.mk l e d).isEndOfWord = e := rfl

@[simp] theorem TrieNode.data_mk (l : List (Char × TrieNode)) (e : Bool) (d : List Nat) :
    (TrieNode.mk l e d).data = d := rfl

/-- A freshly constructed `TrieNode`: empty child map, not a word end, no data. -/
def TrieNode.empty : TrieNode := .mk [] false []

/-- `Map.prototype.get` on an insertion-ordered entry list: the value of the
first (and, for maps built through `set`, only) entry with the given key. -/
def mapGet (l : List (Char × TrieNode)) (c : Char) : Option TrieNode :=
  match l with
  | [] => none
  | (c', v) :: rest => if c' = c then some v else mapGet rest c

/-- `Map.prototype.set` on an insertion-ordered entry list: replace the value of
an existing key in place, otherwise append a new entry at the end. -/
def mapSet (l : List (Char × TrieNode)) (c : Char) (v : TrieNode) : List (Char × TrieNode) :=
  match l with
  | [] => [(c, v)]
  | (c', v') :: rest => if c' = c then (c, v) :: rest else (c', v') :: mapSet rest c v

/-- `insertWithData (word, data)`: walk `word` character by character creating
missing children, then mark the final node as a word end and push `d` onto its
data array. Recursive rendering of the source's iterative walk. -/
def insertWithData : TrieNode → List Char → Nat → TrieNode
  | n, [], d => .mk n.children true (n.data ++ [d])
  | n, c :: cs, d =>
    match mapGet n.children c with
    | some child => .mk (mapSet n.children c (insertWithData child cs d)) n.isEndOfWord n.data
    | none => .mk (n.children ++ [(c, insertWithData TrieNode.empty cs d)]) n.isEndOfWord n.data

/-- A trie populated by a sequence of `insertWithData` calls on a fresh trie. -/
def buildTrie (ops : List (List Char × Nat)) : TrieNode :=
  ops.foldl (fun t op => insertWithData t op.1 op.2) TrieNode.empty

/-- Subtree reached from a node by following a path of characters through the
child maps (`none` when an edge is missing). -/
def nodeAt : TrieNode → List Char → Option TrieNode
  | n, [] => some n
  | n, c :: cs =>
    match mapGet n.children c with
    | some child => nodeAt child cs
    | none => none

/-! ### `levenshteinDistance (a, b)` — classic DP over the matrix

The source fills `matrix[i][j]` for `i ≤ b.length`, `j ≤ a.length` row by row
and returns `matrix[b.length][a.length]`. We keep one row at a time: the fold
below produces row `i` from row `i-1` exactly as the inner `for` loop does. -/

/-- Inner loop of the DP: given the remaining characters of `a`, the previous
row starting at column `j-1` (so its head is the diagonal neighbour and the
next element the upper one), and the entry just computed in the current row,
produce the rest of the current row. -/
def levRowAux (bc : Char) : List Char → List Nat → Nat → List Nat
  | [], _, _ => []
  | _ :: _, [], _ => []
  | ac :: as, pdiag :: ptail, left =>
    let up := ptail.headD 0
    let cur := if bc = ac then pdiag
      else Nat.min (pdiag + 1) (Nat.min (left + 1) (up + 1))
    cur :: levRowAux bc as ptail cur

/-- One step of the outer loop: row `i` of the matrix from row `i-1`; the
first column is `i` (`matrix[i] = [i]`). -/
def levNextRow (a : List Char) (prev : List Nat) (bc : Char) : List Nat :=
  (prev.headD 0 + 1) :: levRowAux bc a prev (prev.headD 0 + 1)

/-- `levenshteinDistance (a, b)` from the source: guards for empty strings,
then the DP matrix; the answer is `matrix[b.length][a.length]`, i.e. the last
entry of the final row. -/
def levenshteinDistance (a b : List Char) : Nat :=
  if a.length = 0 then b.length
  else if b.length = 0 then a.length
  else (b.foldl (levNextRow a) (List.range (a.length + 1))).getLastD 0

/-! ### `searchWithLevenshteinWithData (word, maxDistance)` -/

/-- One `{ word: currentWord, data: node.data }` entry pushed onto `results`. -/
structure SearchResult : Type where
  word : List Char
  data : List Nat
deriving DecidableEq, Repr

/-- `_searchRecursiveWithData` with an explicit fuel argument (the source
recursion terminates because every call either descends into a child or stays
at the node while consuming a query position; fuel makes that measure
explicit). Out of fuel returns no results; the wrapper's fuel strictly
dominates the measure, so that branch is never taken by
`searchWithLevenshteinWithData`.

Mirrors the source line by line: the early return for
`currentIndex > targetWord.length && node.isEndOfWord`; the negative-budget
prune; the word-end push guarded by the full `levenshteinDistance` check; then
the loop over `node.children` appending, per child, the match descent or the
substitution/insertion/deletion triple, or the beyond-query descent. -/
def searchRecWithData :
    Nat → TrieNode → List Char → List Char → Nat → Int → List SearchResult
  | 0, _, _, _, _, _ => []
  | fuel + 1, node, currentWord, targetWord, currentIndex, maxDistance =>
    if currentIndex > targetWord.length ∧ node.isEndOfWord then
      [⟨currentWord, node.data⟩]
    else if maxDistance < 0 then
      []
    else
      (if node.isEndOfWord ∧ ((levenshteinDistance currentWord targetWord : Int) ≤ maxDistance)
        then [⟨currentWord, node.data⟩] else []) ++
      node.children.foldr
        (fun cn acc =>
          (if currentIndex < targetWord.length then
            if cn.1 = targetWord.getD currentIndex default then
              searchRecWithData fuel cn.2 (currentWord ++ [cn.1]) targetWord
                (currentIndex + 1) maxDistance
            else
              searchRecWithData fuel cn.2 (currentWord ++ [cn.1]) targetWord
                (currentIndex + 1) (maxDistance - 1) ++
              searchRecWithData fuel node currentWord targetWord
                (currentIndex + 1) (maxDistance - 1) ++
              searchRecWithData fuel cn.2 (currentWord ++ [cn.1]) targetWord
                currentIndex (maxDistance - 1)
          else
            searchRecWithData fuel cn.2 (currentWord ++ [cn.1]) targetWord
              currentIndex (maxDistance - 1)) ++ acc)
        []

mutual

/-- Number of nodes of a trie (used only to compute an adequate fuel). -/
def TrieNode.size : TrieNode → Nat
  | .mk children _ _ => 1 + sizeChildren children

/-- Total node count of an entry list of children. -/
def sizeChildren : List (Char × TrieNode) → Nat
  | [] => 0
  | (_, ch) :: rest => TrieNode.size ch + sizeChildren rest

end

/-- Fuel that strictly dominates the recursion measure
`size node * (|target| + 1) + (|target| - index)` at the top call. -/
def searchFuel (t : TrieNode) (targetWord : List Char) : Nat :=
  t.size * (targetWord.length + 1) + targetWord.length + 1

/-- `searchWithLevenshteinWithData (word, maxDistance)`: run the recursive
search from the root with the empty assembled word and index 0. -/
def searchWithLevenshteinWithData (t : TrieNode) (word : List Char) (maxDistance : Int) :
    List SearchResult :=
  searchRecWithData (searchFuel t word) t [] word 0 maxDistance

/-! ### Generic helper lemmas -/

/-- Membership in the result accumulation of the children loop: a result comes
from some child's contribution. -/
theorem mem_foldr_append {α β : Type} (f : α → List β) (l : List α) (b : β) :
    b ∈ l.foldr (fun a acc => f a ++ acc) [] ↔ ∃ a ∈ l, b ∈ f a := by
  induction l with
  | nil => simp
  | cons x xs ih => simp [List.foldr_cons, List.mem_append, ih]

/-! ### Monotonicity of the trie search in the distance budget (claim C5) -/

/-- Enlarging the distance budget can only enlarge the result set of the
recursive search, at every fuel value (the structure of the walk does not
depend on the budget except through the prune and the word-end distance
check, both of which are monotone). -/
theorem searchRec_mono (fuel : Nat) :
    ∀ (node : TrieNode) (w t : List Char) (idx : Nat) (d1 d2 : Int), d1 ≤ d2 →
    ∀ r, r ∈ searchRecWithData fuel node w t idx d1 →
      r ∈ searchRecWithData fuel node w t idx d2 := by
  induction fuel with
  | zero =>
    intro node w t idx d1 d2 _ r hr
    simp [searchRecWithData] at hr
  | succ fuel ih =>
    intro node w t idx d1 d2 hd r hr
    simp only [searchRecWithData] at hr ⊢
    by_cases hA : idx > t.length ∧ node.isEndOfWord
    · simp only [if_pos hA] at hr ⊢
      exact hr
    · simp only [if_neg hA] at hr ⊢
      by_cases hneg : d1 < 0
      · simp [if_pos hneg] at hr
      · have hneg2 : ¬ d2 < 0 := by omega
        simp only [if_neg hneg, if_neg hneg2] at hr ⊢
        rcases List.mem_append.1 hr with hbase | hfold
        · refine List.mem_append.2 (Or.inl ?_)
          by_cases hb : node.isEndOfWord ∧ ((levenshteinDistance w t : Int) ≤ d1)
          · have hb2 : node.isEndOfWord ∧ ((levenshteinDistance w t : Int) ≤ d2) :=
              ⟨hb.1, le_trans hb.2 hd⟩
            simp only [if_pos hb] at hbase
            simp only [if_pos hb2]
            exact hbase
          · simp only [if_neg hb] at hbase
            exact absurd hbase (List.not_mem_nil r)
        · refine List.mem_append.2 (Or.inr ?_)
          rw [mem_foldr_append] at hfold ⊢
          obtain ⟨cn, hcn, hrc⟩ := hfold
          refine ⟨cn, hcn, ?_⟩
          by_cases hidx : idx < t.length
          · simp only [if_pos hidx] at hrc ⊢
            by_cases hc : cn.1 = t.getD idx default
            · simp only [if_pos hc] at hrc ⊢
              exact ih _ _ _ _ _ _ hd r hrc
            · simp only [if_neg hc] at hrc ⊢
              have hd1 : d1 - 1 ≤ d2 - 1 := by omega
              rcases List.mem_append.1 hrc with h12 | h3
              · rcases List.mem_append.1 h12 with h1 | h2
                · exact List.mem_append.2 (Or.inl (List.mem_append.2
                    (Or.inl (ih _ _ _ _ _ _ hd1 r h1))))
                · exact List.mem_append.2 (Or.inl (List.mem_append.2
                    (Or.inr (ih _ _ _ _ _ _ hd1 r h2))))
              · exact List.mem_append.2 (Or.inr (ih _ _ _ _ _ _ hd1 r h3))
          · simp only [if_neg hidx] at hrc ⊢
            exact ih _ _ _ _ _ _ (by omega : d1 - 1 ≤ d2 - 1) r hrc

/-- Claim C5: for every trie, every query term, and every pair of distances
d1 ≤ d2, every result of `searchWithLevenshteinWithData` at distance d1 is
also a result at distance d2 (monotonicity of the result set in the
distance). -/
theorem C5_search_monotone_in_distance (t : TrieNode) (q : List Char)
    (d1 d2 : Int) (h : d1 ≤ d2) :
    ∀ r ∈ searchWithLevenshteinWithData t q d1, r ∈ searchWithLevenshteinWithData t q d2 :=
  fun r hr => searchRec_mono _ _ _ _ _ _ _ h r hr

/-- Witness for claim C5 at a concrete instance: the hit for "ab" at distance
0 over the trie {"ab" ↦ 1} is also a hit at distance 1. -/
theorem C5_search_monotone_in_distance_witness :
    (0 : Int) ≤ 1 ∧
      (⟨"ab".data, [1]⟩ : SearchResult) ∈
        searchWithLevenshteinWithData (buildTrie [("ab".data, 1)]) "ab".data 1 :=
  ⟨by decide,
    C5_search_monotone_in_distance (buildTrie [("ab".data, 1)]) "ab".data 0 1
      (by decide) ⟨"ab".data, [1]⟩ (by decide)⟩

/-! ### Well-formed tries

A `Map` never holds two entries for the same key, and `insertWithData` only
goes through `get`/`set`, so tries reachable from the empty trie have
duplicate-free child keys at every node. -/

/-- Every node of the trie has duplicate-free child keys. -/
inductive WFNode : TrieNode → Prop where
  | mk : ∀ (children : List (Char × TrieNode)) (e : Bool) (d : List Nat),
      (children.map Prod.fst).Nodup →
      (∀ p ∈ children, WFNode p.2) →
      WFNode (.mk children e d)

theorem WFNode.children_nodup : ∀ {n : TrieNode}, WFNode n → (n.children.map Prod.fst).Nodup
  | _, .mk _ _ _ h _ => h

theorem WFNode.child : ∀ {n : TrieNode}, WFNode n → ∀ p ∈ n.children, WFNode p.2
  | _, .mk _ _ _ _ h => h

theorem WFNode_empty : WFNode TrieNode.empty := .mk _ _ _ (by simp) (by simp)

theorem mem_of_mapGet_eq_some {l : List (Char × TrieNode)} {c : Char} {v : TrieNode}
    (h : mapGet l c = some v) : (c, v) ∈ l := by
  induction l with
  | nil => simp [mapGet] at h
  | cons p rest ih =>
    obtain ⟨c', v'⟩ := p
    by_cases hc : c' = c
    · subst hc
      simp [mapGet] at h
      simp [h]
    · simp only [mapGet, if_neg hc] at h
      exact List.mem_cons_of_mem _ (ih h)

theorem mapGet_eq_some_of_mem {l : List (Char × TrieNode)} {c : Char} {v : TrieNode}
    (hnd : (l.map Prod.fst).Nodup) (h : (c, v) ∈ l) : mapGet l c = some v := by
  induction l with
  | nil => simp at h
  | cons p rest ih =>
    obtain ⟨c', v'⟩ := p
    rcases List.mem_cons.1 h with h1 | h2
    · obtain ⟨rfl, rfl⟩ := Prod.mk.injEq .. ▸ h1
      simp [mapGet]
    · have hc : c' ≠ c := by
        rintro rfl
        simp at hnd
        exact hnd.1 v h2
      simp only [mapGet, if_neg hc]
      exact ih (by simp at hnd ⊢; exact hnd.2) h2

theorem mapGet_eq_none_iff {l : List (Char × TrieNode)} {c : Char} :
    mapGet l c = none ↔ c ∉ l.map Prod.fst := by
  induction l with
  | nil => simp [mapGet]
  | cons p rest ih =>
    obtain ⟨c', v'⟩ := p
    by_cases hc : c' = c
    · subst hc
      simp [mapGet]
    · simp [mapGet, if_neg hc, ih, Ne.symm hc]

theorem mapSet_keys_of_get_some {l : List (Char × TrieNode)} {c : Char} {v0 : TrieNode}
    (h : mapGet l c = some v0) (v : TrieNode) :
    (mapSet l c v).map Prod.fst = l.map Prod.fst := by
  induction l with
  | nil => simp [mapGet] at h
  | cons p rest ih =>
    obtain ⟨c', v'⟩ := p
    by_cases hc : c' = c
    · subst hc
      simp [mapSet]
    · simp only [mapGet, if_neg hc] at h
      simp [mapSet, if_neg hc, ih h]

theorem mem_mapSet {l : List (Char × TrieNode)} {c : Char} {v : TrieNode} :
    ∀ p ∈ mapSet l c v, p = (c, v) ∨ p ∈ l := by
  induction l with
  | nil => simp [mapSet]
  | cons q rest ih =>
    obtain ⟨c', v'⟩ := q
    intro p hp
    by_cases hc : c' = c
    · subst hc
      simp only [mapSet, if_pos rfl] at hp
      rcases List.mem_cons.1 hp with h1 | h2
      · exact Or.inl h1
      · exact Or.inr (List.mem_cons_of_mem _ h2)
    · simp only [mapSet, if_neg hc] at hp
      rcases List.mem_cons.1 hp with h1 | h2
      · exact Or.inr (h1 ▸ List.mem_cons_self _ _)
      · rcases ih p h2 with h | h
        · exact Or.inl h
        · exact Or.inr (List.mem_cons_of_mem _ h)

/-- `insertWithData` preserves well-formedness of the trie. -/
theorem WFNode_insertWithData : ∀ (w : List Char) (n : TrieNode) (x : Nat),
    WFNode n → WFNode (insertWithData n w x) := by
  intro w
  induction w with
  | nil =>
    intro n x hn
    obtain ⟨children, e, d⟩ := n
    exact .mk _ _ _ hn.children_nodup hn.child
  | cons c cs ih =>
    intro n x hn
    simp only [insertWithData]
    cases hget : mapGet n.children c with
    | some child =>
      refine .mk _ _ _ ?_ ?_
      · rw [mapSet_keys_of_get_some hget]
        exact hn.children_nodup
      · intro p hp
        rcases mem_mapSet p hp with h | h
        · subst h
          exact ih _ x (hn.child _ (mem_of_mapGet_eq_some hget))
        · exact hn.child p h
    | none =>
      refine .mk _ _ _ ?_ ?_
      · rw [List.map_append]
        simp only [List.map_cons, List.map_nil]
        refine List.Nodup.append hn.children_nodup (List.nodup_singleton c) ?_
        intro a ha hb
        simp at hb
        subst hb
        exact (mapGet_eq_none_iff.1 hget) ha
      · intro p hp
        rcases List.mem_append.1 hp with h | h
        · exact hn.child p h
        · simp at h
          subst h
          exact ih _ x WFNode_empty

/-- Tries built by a sequence of `insertWithData` calls are well formed. -/
theorem WFNode_buildTrie (ops : List (List Char × Nat)) : WFNode (buildTrie ops) := by
  suffices h : ∀ t, WFNode t → WFNode (ops.foldl (fun t op => insertWithData t op.1 op.2) t) by
    exact h _ WFNode_empty
  induction ops with
  | nil => intro t ht; exact ht
  | cons op rest ih =>
    intro t ht
    exact ih _ (WFNode_insertWithData _ _ _ ht)

/-! ### Soundness of the trie search (claim C2) -/

/-- Every result pushed by `_searchRecursiveWithData`, started at a well-formed
node with the index still inside the query, extends the assembled word to an
end-of-word descendant, carries that node's data, and its word is within the
current (hence the initial) distance budget of the query.  The early-return
branch for `currentIndex > targetWord.length` is unreachable under
`idx ≤ t.length` because the index only ever grows while strictly below the
query length. -/
theorem searchRec_sound (fuel : Nat) :
    ∀ (node : TrieNode) (w t : List Char) (idx : Nat) (d : Int),
    WFNode node → idx ≤ t.length →
    ∀ r ∈ searchRecWithData fuel node w t idx d,
    ∃ suf m, nodeAt node suf = some m ∧ m.isEndOfWord ∧ r.word = w ++ suf ∧
      r.data = m.data ∧ ((levenshteinDistance r.word t : Int) ≤ d) := by
  induction fuel with
  | zero =>
    intro node w t idx d _ _ r hr
    simp [searchRecWithData] at hr
  | succ fuel ih =>
    intro node w t idx d hwf hidxle r hr
    simp only [searchRecWithData] at hr
    have hA : ¬ (idx > t.length ∧ node.isEndOfWord) := by
      rintro ⟨h1, _⟩
      omega
    rw [if_neg hA] at hr
    by_cases hneg : d < 0
    · simp [if_pos hneg] at hr
    · rw [if_neg hneg] at hr
      rcases List.mem_append.1 hr with hbase | hfold
      · by_cases hb : node.isEndOfWord ∧ ((levenshteinDistance w t : Int) ≤ d)
        · rw [if_pos hb] at hbase
          rcases List.mem_singleton.1 hbase with rfl
          exact ⟨[], node, rfl, hb.1, (List.append_nil w).symm, rfl, hb.2⟩
        · rw [if_neg hb] at hbase
          exact absurd hbase (List.not_mem_nil r)
      · rw [mem_foldr_append] at hfold
        obtain ⟨cn, hcn, hrc⟩ := hfold
        have hwfc : WFNode cn.2 := hwf.child cn hcn
        have hget : mapGet node.children cn.1 = some cn.2 :=
          mapGet_eq_some_of_mem hwf.children_nodup (by exact hcn)
        by_cases hidx : idx < t.length
        · rw [if_pos hidx] at hrc
          by_cases hc : cn.1 = t.getD idx default
          · rw [if_pos hc] at hrc
            obtain ⟨suf, m, h1, h2, h3, h4, h5⟩ := ih cn.2 _ t (idx + 1) d hwfc hidx r hrc
            exact ⟨cn.1 :: suf, m, by simp [nodeAt, hget, h1], h2, by simp [h3], h4, h5⟩
          · rw [if_neg hc] at hrc
            rcases List.mem_append.1 hrc with h12 | h3
            · rcases List.mem_append.1 h12 with h1 | h2
              · obtain ⟨suf, m, g1, g2, g3, g4, g5⟩ :=
                  ih cn.2 _ t (idx + 1) (d - 1) hwfc hidx r h1
                exact ⟨cn.1 :: suf, m, by simp [nodeAt, hget, g1], g2, by simp [g3], g4,
                  by omega⟩
              · obtain ⟨suf, m, g1, g2, g3, g4, g5⟩ :=
                  ih node w t (idx + 1) (d - 1) hwf hidx r h2
                exact ⟨suf, m, g1, g2, g3, g4, by omega⟩
            · obtain ⟨suf, m, g1, g2, g3, g4, g5⟩ :=
                ih cn.2 _ t idx (d - 1) hwfc hidxle r h3
              exact ⟨cn.1 :: suf, m, by simp [nodeAt, hget, g1], g2, by simp [g3], g4,
                by omega⟩
        · rw [if_neg hidx] at hrc
          obtain ⟨suf, m, g1, g2, g3, g4, g5⟩ :=
            ih cn.2 _ t idx (d - 1) hwfc hidxle r hrc
          exact ⟨cn.1 :: suf, m, by simp [nodeAt, hget, g1], g2, by simp [g3], g4, by omega⟩

/-- Counterexample to claim C2 (exactness of the fuzzy search): over the trie
holding exactly the term "ab", the query "a" at maxDistance 1 returns nothing,
although the indexed term "ab" has Levenshtein distance 1 ≤ 1 to the query.
The walk consumes "a" on the matching edge and afterwards only follows the
beyond-query branch with a decremented budget, so the final word-end check
runs with budget 0 and rejects. -/
theorem C2_search_not_exact_counterexample :
    searchWithLevenshteinWithData (buildTrie [("ab".data, 1)]) "a".data 1 = [] ∧
      levenshteinDistance "ab".data "a".data = 1 := by
  exact ⟨by decide, by decide⟩

/-- Claim C2, amended: for every trie built by `insertWithData` calls, every
result of `searchWithLevenshteinWithData (q, d)` is an indexed term (an
end-of-word node of the trie) whose Levenshtein distance to the query is at
most `d`, paired with exactly the data stored at that term's terminal node —
but the result list is only sound, not exact: terms within the distance bound
may be missing, and a term may be listed more than once. -/
theorem C2_search_sound (ops : List (List Char × Nat)) (q : List Char) (d : Int)
    (r : SearchResult) (hr : r ∈ searchWithLevenshteinWithData (buildTrie ops) q d) :
    ∃ m, nodeAt (buildTrie ops) r.word = some m ∧ m.isEndOfWord ∧ r.data = m.data ∧
      ((levenshteinDistance r.word q : Int) ≤ d) := by
  obtain ⟨suf, m, h1, h2, h3, h4, h5⟩ :=
    searchRec_sound _ _ _ _ _ _ (WFNode_buildTrie ops) (Nat.zero_le _) r hr
  rw [List.nil_append] at h3
  exact ⟨m, h3 ▸ h1, h2, h4, h5⟩

/-- Witness for the amended claim C2 at a concrete instance: the single hit
for query "ab" at distance 0 over the trie {"ab" ↦ 1}. -/
theorem C2_search_sound_witness :
    (⟨"ab".data, [1]⟩ : SearchResult) ∈
        searchWithLevenshteinWithData (buildTrie [("ab".data, 1)]) "ab".data 0 ∧
      ∃ m, nodeAt (buildTrie [("ab".data, 1)]) ("ab".data) = some m ∧ m.isEndOfWord ∧
        [1] = m.data ∧ ((levenshteinDistance "ab".data "ab".data : Int) ≤ 0) :=
  ⟨by decide, C2_search_sound [("ab".data, 1)] "ab".data 0 ⟨"ab".data, [1]⟩ (by decide)⟩

/-! ### The DP distance of a string to itself is zero

Row `i` of the matrix for `levenshteinDistance a a` is `j ↦ |i − j|`
(`distN i j`, the absolute difference): two strings of which one is a prefix of the other are at
distance exactly their length difference. -/

/-- Absolute difference of naturals, describing the DP rows of the
self-comparison. -/
def distN (i j : Nat) : Nat := i - j + (j - i)

/-- The inner DP loop step, on the self-comparison rows: starting at column
`j0 + 1` with the previous row `j ↦ dist k j` and the current row's previous
entry `dist (k+1) j0`, it produces `j ↦ dist (k+1) j`.  The hypothesis pins
the character of `a` at index `k` to the row character `bc`; at every other
column both branches of the character test produce the same value. -/
theorem levRowAux_dist (bc : Char) :
    ∀ (as : List Char) (j0 k : Nat),
    (j0 ≤ k → k < j0 + as.length → as.getD (k - j0) default = bc) →
    levRowAux bc as ((List.range' j0 (as.length + 1)).map (distN k)) (distN (k + 1) j0)
      = (List.range' (j0 + 1) as.length).map (distN (k + 1)) := by
  intro as
  induction as with
  | nil =>
    intro j0 k _
    simp [levRowAux, List.range'_succ]
  | cons ac as ih =>
    intro j0 k h
    simp only [List.length_cons]
    rw [List.range'_succ, List.map_cons]
    simp only [levRowAux]
    have hup : ((List.range' (j0 + 1) (as.length + 1)).map (distN k)).headD 0
        = distN k (j0 + 1) := by
      rw [List.range'_succ, List.map_cons]
      rfl
    have hcur : (if bc = ac then distN k j0
        else Nat.min (distN k j0 + 1)
          (Nat.min (distN (k + 1) j0 + 1)
            (((List.range' (j0 + 1) (as.length + 1)).map (distN k)).headD 0 + 1)))
        = distN (k + 1) (j0 + 1) := by
      rw [hup]
      by_cases hbc : bc = ac
      · rw [if_pos hbc]
        simp only [distN]
        omega
      · rw [if_neg hbc]
        have hj0 : j0 ≠ k := by
          rintro rfl
          have h3 := h le_rfl (by simp only [List.length_cons]; omega)
          rw [Nat.sub_self, List.getD_cons_zero] at h3
          exact hbc h3.symm
        simp only [distN, Nat.min_def]
        split_ifs <;> omega
    rw [hcur]
    rw [List.range'_succ (j0 + 1) as.length, List.map_cons]
    congr 1
    refine ih (j0 + 1) k ?_
    intro h1 h2
    have h3 := h (by omega) (by simp only [List.length_cons]; omega)
    have h4 : k - j0 = (k - (j0 + 1)) + 1 := by omega
    rw [h4, List.getD_cons_succ] at h3
    exact h3

/-- After folding the first `k` characters of `a` (comparing `a` to itself),
the current row is `j ↦ dist k j` over columns `0 … |a|`. -/
theorem levFold_self (a : List Char) :
    ∀ k, k ≤ a.length →
    (a.take k).foldl (levNextRow a) (List.range (a.length + 1))
      = (List.range' 0 (a.length + 1)).map (distN k) := by
  intro k
  induction k with
  | zero =>
    intro _
    rw [List.take_zero, List.foldl_nil, List.range_eq_range']
    have : distN 0 = id := funext fun j => by simp [distN]
    rw [this, List.map_id]
  | succ k ih =>
    intro hk1
    have hk : k < a.length := hk1
    rw [List.take_succ, List.getElem?_eq_getElem hk]
    simp only [Option.toList_some, List.foldl_append, List.foldl_cons, List.foldl_nil]
    rw [ih (le_of_lt hk)]
    simp only [levNextRow]
    have hhead : ((List.range' 0 (a.length + 1)).map (distN k)).headD 0 = k := by
      rw [List.range'_succ, List.map_cons]
      simp [distN]
    rw [hhead]
    have hbc : (0 ≤ k → k < 0 + a.length → a.getD (k - 0) default = a[k]) := by
      intro _ _
      simp [List.getD_eq_getElem?_getD, List.getElem?_eq_getElem hk]
    have haux := levRowAux_dist (a[k]) a 0 k hbc
    have hleft : distN (k + 1) 0 = k + 1 := by simp [distN]
    rw [hleft] at haux
    rw [haux]
    rw [List.range'_succ 0 (a.length), List.map_cons]
    congr 1
    simp [distN]

/-- The last entry of the self-comparison row `j ↦ dist k j`. -/
theorem getLastD_map_dist_range' (k : Nat) :
    ∀ (n s d : Nat), ((List.range' s (n + 1)).map (distN k)).getLastD d = distN k (s + n) := by
  intro n
  induction n with
  | zero =>
    intro s d
    rw [List.range'_succ]
    simp
  | succ n ih =>
    intro s d
    rw [List.range'_succ, List.map_cons, List.getLastD_cons, ih (s + 1)]
    congr 1
    omega

/-- The source's dynamic-programming edit distance of a string to itself is 0. -/
theorem levenshteinDistance_self (a : List Char) : levenshteinDistance a a = 0 := by
  by_cases h : a.length = 0
  · simp [levenshteinDistance, h]
  · have hfold := levFold_self a a.length le_rfl
    rw [List.take_length] at hfold
    simp only [levenshteinDistance, if_neg h]
    rw [hfold]
    rcases Nat.exists_eq_succ_of_ne_zero h with ⟨n, hn⟩
    rw [hn, getLastD_map_dist_range']
    simp [distN]

/-! ### Exact term retrieval at distance 0 (claim C6) -/

/-- The character of the concatenation at the junction index. -/
theorem getD_append_cons (pre : List Char) (c : Char) (cs : List Char) :
    (pre ++ c :: cs).getD pre.length default = c := by
  induction pre with
  | nil => simp
  | cons p ps ih => simpa using ih

theorem mapGet_mapSet_self (l : List (Char × TrieNode)) (c : Char) (v : TrieNode) :
    mapGet (mapSet l c v) c = some v := by
  induction l with
  | nil => simp [mapSet, mapGet]
  | cons p rest ih =>
    obtain ⟨c', v'⟩ := p
    by_cases hc : c' = c
    · subst hc
      simp [mapSet, mapGet]
    · simp only [mapSet, if_neg hc, mapGet]
      exact ih

theorem mapGet_mapSet_ne (l : List (Char × TrieNode)) {c c' : Char} (h : c' ≠ c)
    (v : TrieNode) : mapGet (mapSet l c v) c' = mapGet l c' := by
  induction l with
  | nil => simp [mapSet, mapGet, Ne.symm h]
  | cons p rest ih =>
    obtain ⟨c0, v0⟩ := p
    by_cases hc : c0 = c
    · subst hc
      simp only [mapSet, if_pos rfl, mapGet]
      rw [if_neg (Ne.symm h), if_neg (fun e => (Ne.symm h) e)]
    · simp only [mapSet, if_neg hc, mapGet]
      by_cases hc' : c0 = c'
      · rw [if_pos hc', if_pos hc']
      · rw [if_neg hc', if_neg hc']
        exact ih

theorem mapGet_append_of_none {l : List (Char × TrieNode)} {c : Char}
    (h : mapGet l c = none) (v : TrieNode) : mapGet (l ++ [(c, v)]) c = some v := by
  induction l with
  | nil => simp [mapGet]
  | cons p rest ih =>
    obtain ⟨c0, v0⟩ := p
    by_cases hc : c0 = c
    · simp [mapGet, if_pos hc] at h
    · simp only [mapGet, if_neg hc] at h
      simp only [List.cons_append, mapGet, if_neg hc]
      exact ih h

theorem mapGet_append_ne {l : List (Char × TrieNode)} {c c' : Char} (h : c ≠ c')
    (v : TrieNode) : mapGet (l ++ [(c, v)]) c' = mapGet l c' := by
  induction l with
  | nil => simp [mapGet, h]
  | cons p rest ih =>
    obtain ⟨c0, v0⟩ := p
    simp only [List.cons_append, mapGet]
    by_cases hc : c0 = c'
    · rw [if_pos hc, if_pos hc]
    · rw [if_neg hc, if_neg hc]
      exact ih

/-- Inserting a word leaves an end-of-word marker reachable along that word. -/
theorem nodeAt_insertWithData_self : ∀ (w : List Char) (n : TrieNode) (x : Nat),
    ∃ m, nodeAt (insertWithData n w x) w = some m ∧ m.isEndOfWord := by
  intro w
  induction w with
  | nil =>
    intro n x
    exact ⟨_, rfl, rfl⟩
  | cons c cs ih =>
    intro n x
    simp only [insertWithData]
    cases hget : mapGet n.children c with
    | some child =>
      obtain ⟨m, h1, h2⟩ := ih child x
      refine ⟨m, ?_, h2⟩
      simp only [nodeAt, TrieNode.children_mk]
      rw [mapGet_mapSet_self]
      exact h1
    | none =>
      obtain ⟨m, h1, h2⟩ := ih TrieNode.empty x
      refine ⟨m, ?_, h2⟩
      simp only [nodeAt, TrieNode.children_mk]
      rw [mapGet_append_of_none hget]
      exact h1

/-- Inserting any other word never clears an existing end-of-word marker. -/
theorem nodeAt_insertWithData_end : ∀ (w wi : List Char) (n : TrieNode) (x : Nat)
    (m : TrieNode), nodeAt n w = some m → m.isEndOfWord →
    ∃ m2, nodeAt (insertWithData n wi x) w = some m2 ∧ m2.isEndOfWord := by
  intro w
  induction w with
  | nil =>
    intro wi n x m h hend
    have hnm : n = m := by
      simpa [nodeAt] using h
    subst hnm
    cases wi with
    | nil => exact ⟨_, rfl, rfl⟩
    | cons c cs =>
      refine ⟨_, rfl, ?_⟩
      simp only [insertWithData]
      cases mapGet n.children c <;> exact hend
  | cons c cs ih =>
    intro wi n x m h hend
    simp only [nodeAt] at h
    cases hget : mapGet n.children c with
    | none =>
      rw [hget] at h
      exact absurd h (by simp)
    | some child =>
      rw [hget] at h
      cases wi with
      | nil =>
        refine ⟨m, ?_, hend⟩
        simp only [insertWithData, nodeAt, TrieNode.children_mk]
        rw [hget]
        exact h
      | cons ci csi =>
        simp only [insertWithData]
        cases hget' : mapGet n.children ci with
        | some child' =>
          by_cases hcc : ci = c
          · subst hcc
            rw [hget] at hget'
            injection hget' with e
            subst e
            obtain ⟨m2, g1, g2⟩ := ih csi child x m h hend
            refine ⟨m2, ?_, g2⟩
            simp only [nodeAt, TrieNode.children_mk]
            rw [mapGet_mapSet_self]
            exact g1
          · refine ⟨m, ?_, hend⟩
            simp only [nodeAt, TrieNode.children_mk]
            rw [mapGet_mapSet_ne _ (fun e => hcc e.symm), hget]
            exact h
        | none =>
          have hcc : ci ≠ c := by
            rintro rfl
            rw [hget] at hget'
            cases hget'
          refine ⟨m, ?_, hend⟩
          simp only [nodeAt, TrieNode.children_mk]
          rw [mapGet_append_ne hcc, hget]
          exact h

/-- Every inserted word is an end-of-word node of the built trie. -/
theorem buildTrie_end (ops : List (List Char × Nat)) (w : List Char) (x : Nat)
    (h : (w, x) ∈ ops) :
    ∃ m, nodeAt (buildTrie ops) w = some m ∧ m.isEndOfWord := by
  suffices hgen : ∀ (l : List (List Char × Nat)) (t : TrieNode),
      ((w, x) ∈ l ∨ ∃ m, nodeAt t w = some m ∧ m.isEndOfWord) →
      ∃ m, nodeAt (l.foldl (fun t op => insertWithData t op.1 op.2) t) w = some m ∧
        m.isEndOfWord by
    exact hgen ops TrieNode.empty (Or.inl h)
  intro l
  induction l with
  | nil =>
    rintro t (h | h)
    · simp at h
    · exact h
  | cons op rest ih =>
    rintro t (hmem | ⟨m, h1, h2⟩)
    · rcases List.mem_cons.1 hmem with heq | hmem'
      · obtain ⟨m, g1, g2⟩ := nodeAt_insertWithData_self w t x
        refine ih _ (Or.inr ⟨m, ?_, g2⟩)
        rw [← heq]
        exact g1
      · exact ih _ (Or.inl hmem')
    · obtain ⟨m2, g1, g2⟩ := nodeAt_insertWithData_end w op.1 t op.2 m h1 h2
      exact ih _ (Or.inr ⟨m2, g1, g2⟩)

/-- Walking an exact match of the remaining suffix at budget 0: the terminal
result is pushed when the word end is reached, because the full-word
verification compares the assembled word with itself. -/
theorem searchRec_exact :
    ∀ (suf : List Char) (fuel : Nat) (node m : TrieNode) (pre : List Char),
    nodeAt node suf = some m → m.isEndOfWord → suf.length < fuel →
    (⟨pre ++ suf, m.data⟩ : SearchResult) ∈
      searchRecWithData fuel node pre (pre ++ suf) pre.length 0 := by
  intro suf
  induction suf with
  | nil =>
    intro fuel node m pre hnode hend hfuel
    obtain ⟨fuel, rfl⟩ : ∃ f, fuel = f + 1 := ⟨fuel - 1, by omega⟩
    have hnm : node = m := by simpa [nodeAt] using hnode
    subst hnm
    simp only [searchRecWithData, List.append_nil]
    rw [if_neg (by simp), if_neg (by simp)]
    refine List.mem_append.2 (Or.inl ?_)
    rw [if_pos ⟨hend, by simp [levenshteinDistance_self]⟩]
    exact List.mem_singleton.2 rfl
  | cons c cs ih =>
    intro fuel node m pre hnode hend hfuel
    obtain ⟨fuel, rfl⟩ : ∃ f, fuel = f + 1 := ⟨fuel - 1, by omega⟩
    simp only [nodeAt] at hnode
    cases hget : mapGet node.children c with
    | none =>
      rw [hget] at hnode
      exact absurd hnode (by simp)
    | some child =>
      rw [hget] at hnode
      simp only [searchRecWithData]
      rw [if_neg (by simp), if_neg (by simp)]
      refine List.mem_append.2 (Or.inr ?_)
      rw [mem_foldr_append]
      refine ⟨(c, child), mem_of_mapGet_eq_some hget, ?_⟩
      have hidx : pre.length < (pre ++ c :: cs).length := by simp
      rw [if_pos hidx]
      rw [getD_append_cons pre c cs, if_pos rfl]
      have hin := ih fuel child m (pre ++ [c]) hnode hend (by simp at hfuel ⊢; omega)
      simpa [List.append_assoc] using hin

/-- Claim C6: for every term inserted into the trie via `insertWithData` (with
any associated value), `searchWithLevenshteinWithData (term, 0)` includes a
result whose word is exactly that term and whose data is the full data list
stored at that term's terminal node. -/
theorem C6_search_at_zero_finds_inserted_term (ops : List (List Char × Nat))
    (w : List Char) (x : Nat) (h : (w, x) ∈ ops) :
    ∃ m, nodeAt (buildTrie ops) w = some m ∧ m.isEndOfWord ∧
      (⟨w, m.data⟩ : SearchResult) ∈ searchWithLevenshteinWithData (buildTrie ops) w 0 := by
  obtain ⟨m, h1, h2⟩ := buildTrie_end ops w x h
  refine ⟨m, h1, h2, ?_⟩
  have hfuel : w.length < searchFuel (buildTrie ops) w := by
    simp only [searchFuel]
    omega
  have := searchRec_exact w (searchFuel (buildTrie ops) w) (buildTrie ops) m [] h1 h2 hfuel
  simpa [searchWithLevenshteinWithData] using this

/-- Witness for claim C6 at a concrete instance: the term "ab" inserted with
value 1 is found exactly by a distance-0 search. -/
theorem C6_search_at_zero_finds_inserted_term_witness :
    ("ab".data, 1) ∈ [("ab".data, 1)] ∧
      ∃ m, nodeAt (buildTrie [("ab".data, 1)]) ("ab".data) = some m ∧ m.isEndOfWord ∧
        (⟨"ab".data, m.data⟩ : SearchResult) ∈
          searchWithLevenshteinWithData (buildTrie [("ab".data, 1)]) "ab".data 0 :=
  ⟨by decide, C6_search_at_zero_finds_inserted_term [("ab".data, 1)] "ab".data 1 (by decide)⟩

/-! ### Serialization — `save` / `load` (claim C1)

`save` is `JSON.stringify(this.root, replacer)` where the replacer turns every
`Map` into its array of `[key, value]` entries; `load` is
`JSON.parse(jsonString, reviver)` where the reviver turns every array back
into a `Map` via `new Map(value)`.  Stringifying and re-parsing is the
identity on the JSON document, so we model `save` as the JSON tree it writes
and `load` as the reviver acting on that tree. -/

/-- JSON documents produced by `save` (strings, numbers, booleans, arrays,
plain objects). -/
inductive Json : Type where
  | str (s : String)
  | num (n : Nat)
  | bool (b : Bool)
  | arr (elements : List Json)
  | obj (fields : List (String × Json))

/-- JavaScript values produced by the reviver: JSON scalars, arrays, plain
objects, `Map` objects, and `undefined` (from absent properties). -/
inductive JsValue : Type where
  | str (s : String)
  | num (n : Nat)
  | bool (b : Bool)
  | undef
  | arr (elements : List JsValue)
  | map (entries : List (JsValue × JsValue))
  | obj (fields : List (String × JsValue))

mutual

/-- The JSON document written for a node by `JSON.stringify` with the `save`
replacer: own enumerable properties in insertion order (`children`,
`isEndOfWord`, `data`), with the children `Map` replaced by its entry array
(each entry an array `[character, child node]`). -/
def nodeToJson : TrieNode → Json
  | .mk children e d =>
    .obj [("children", .arr (childrenToJson children)),
          ("isEndOfWord", .bool e),
          ("data", .arr (d.map Json.num))]

/-- The entry array written for a children `Map`. -/
def childrenToJson : List (Char × TrieNode) → List Json
  | [] => []
  | (c, ch) :: rest => .arr [.str (String.mk [c]), nodeToJson ch] :: childrenToJson rest

end

/-- The entry that `new Map(iterable)` reads from one item of the iterable:
arrays (and other objects) yield their `[0]` and `[1]` properties (`undefined`
when absent — a `Map` or plain object without such keys gives
`undefined`/`undefined`); a primitive item makes the `Map` constructor throw
`TypeError: Iterator value … is not an entry object`. -/
def jsEntryOf : JsValue → Except String (JsValue × JsValue)
  | .arr xs => .ok (xs.getD 0 .undef, xs.getD 1 .undef)
  | .map _ => .ok (.undef, .undef)
  | .obj fields => .ok (((fields.lookup "0").getD .undef), ((fields.lookup "1").getD .undef))
  | _ => .error "TypeError: Iterator value is not an entry object"

/-- `new Map(items)` over the already-revived items of an array. -/
def entriesOfList : List JsValue → Except String (List (JsValue × JsValue))
  | [] => .ok []
  | x :: rest =>
    match jsEntryOf x, entriesOfList rest with
    | .ok e, .ok es => .ok (e :: es)
    | .error msg, _ => .error msg
    | _, .error msg => .error msg

mutual

/-- `JSON.parse` with the `load` reviver: members are revived bottom-up, and
every value that is still an array afterwards is replaced by `new Map(value)`
— including the `data` arrays and the `[character, node]` entry pairs, not
just the children entry arrays. A thrown `TypeError` is modelled as
`Except.error`. -/
def revive : Json → Except String JsValue
  | .str s => .ok (.str s)
  | .num n => .ok (.num n)
  | .bool b => .ok (.bool b)
  | .arr xs =>
    match reviveList xs with
    | .ok ys =>
      match entriesOfList ys with
      | .ok es => .ok (.map es)
      | .error msg => .error msg
    | .error msg => .error msg
  | .obj fields =>
    match reviveFields fields with
    | .ok fs => .ok (.obj fs)
    | .error msg => .error msg

/-- Revive the elements of an array left to right. -/
def reviveList : List Json → Except String (List JsValue)
  | [] => .ok []
  | x :: rest =>
    match revive x with
    | .ok y =>
      match reviveList rest with
      | .ok ys => .ok (y :: ys)
      | .error msg => .error msg
    | .error msg => .error msg

/-- Revive the fields of an object in property order. -/
def reviveFields : List (String × Json) → Except String (List (String × JsValue))
  | [] => .ok []
  | (k, x) :: rest =>
    match revive x with
    | .ok y =>
      match reviveFields rest with
      | .ok ys => .ok ((k, y) :: ys)
      | .error msg => .error msg
    | .error msg => .error msg

end

/-- How much of a revived value can be read back as a trie node, as the
round-trip law supposes (`load … reconstructs an equivalent tree`): a node is
an object whose `children` is a `Map` from one-character strings to nodes,
whose `isEndOfWord` is a boolean and whose `data` is an array of numbers. -/
def natsOfJsValues : List JsValue → Except String (List Nat)
  | [] => .ok []
  | .num n :: rest =>
    match natsOfJsValues rest with
    | .ok xs => .ok (n :: xs)
    | .error msg => .error msg
  | _ :: _ => .error "TypeError: malformed trie node"

mutual

/-- Read a revived value back as a trie node (shape check for the round
trip); any other shape means the loaded root is not an equivalent tree. -/
def trieOfJsValue : JsValue → Except String TrieNode
  | .obj [("children", .map entries), ("isEndOfWord", .bool e), ("data", .arr ds)] =>
    match childrenOfEntries entries, natsOfJsValues ds with
    | .ok cs, .ok xs => .ok (.mk cs e xs)
    | .error msg, _ => .error msg
    | _, .error msg => .error msg
  | _ => .error "TypeError: malformed trie node"

/-- Read the entries of a children `Map` back as child edges. -/
def childrenOfEntries : List (JsValue × JsValue) → Except String (List (Char × TrieNode))
  | [] => .ok []
  | (.str ⟨[c]⟩, v) :: rest =>
    match trieOfJsValue v, childrenOfEntries rest with
    | .ok ch, .ok cs => .ok ((c, ch) :: cs)
    | .error msg, _ => .error msg
    | _, .error msg => .error msg
  | _ :: _ => .error "TypeError: malformed trie node"

end

/-- The round trip of claim C1 on the build side: `save` the trie, `load` the
resulting JSON (the reviver may throw), read the loaded root back as a trie,
and run the search on it. -/
def searchAfterSaveLoad (t : TrieNode) (q : List Char) (d : Int) :
    Except String (List SearchResult) :=
  match revive (nodeToJson t) with
  | .error msg => .error msg
  | .ok root =>
    match trieOfJsValue root with
    | .error msg => .error msg
    | .ok t2 => .ok (searchWithLevenshteinWithData t2 q d)

/-- Counterexample to claim C1 (round-trip law): for the trie populated by
`insertWithData("a", 1)`, searching "a" at distance 0 before serialization
yields the one stored term, but `load(save())` throws: the reviver hands the
`data` array `[1]` to `new Map`, whose iteration rejects the primitive `1`
(and the `["a", node]` entry pairs are themselves clobbered into `Map`s), so
no query can be answered after the round trip.  The client-side
`LevenshteinTrieUser.load` never parses at all — it stores the raw JSON
string as the root, so its searches throw as well. -/
theorem C1_roundtrip_counterexample :
    searchAfterSaveLoad (buildTrie [("a".data, 1)]) "a".data 0
        = .error "TypeError: Iterator value is not an entry object" ∧
      searchWithLevenshteinWithData (buildTrie [("a".data, 1)]) "a".data 0
        = [⟨"a".data, [1]⟩] :=
  ⟨rfl, by decide⟩

/-! ### The client-side trie — `LevenshteinTrieUser` (claim C10)

The client bundle ships its own copy of the trie class
(`LevenshteinTrieUser`); its `insertWithData`, `levenshteinDistance` and
`_searchRecursiveWithData`/`searchWithLevenshteinWithData` bodies are embedded
here separately so that the behavioural equality with the build-side
`LevenshteinTrie` is a theorem about two definitions, not a definitional
identity.  The node state type and the `Map` primitives are shared: both
files declare the identical `TrieNode` class. -/

namespace UserTrie

/-- `LevenshteinTrieUser.insertWithData`, embedded from the client bundle. -/
def insertWithData : TrieNode → List Char → Nat → TrieNode
  | n, [], d => .mk n.children true (n.data ++ [d])
  | n, c :: cs, d =>
    match mapGet n.children c with
    | some child => .mk (mapSet n.children c (insertWithData child cs d)) n.isEndOfWord n.data
    | none => .mk (n.children ++ [(c, insertWithData TrieNode.empty cs d)]) n.isEndOfWord n.data

/-- A client-side trie populated by a sequence of `insertWithData` calls. -/
def buildTrie (ops : List (List Char × Nat)) : TrieNode :=
  ops.foldl (fun t op => insertWithData t op.1 op.2) TrieNode.empty

/-- Inner DP loop of the client-side `levenshteinDistance`. -/
def levRowAux (bc : Char) : List Char → List Nat → Nat → List Nat
  | [], _, _ => []
  | _ :: _, [], _ => []
  | ac :: as, pdiag :: ptail, left =>
    let up := ptail.headD 0
    let cur := if bc = ac then pdiag
      else Nat.min (pdiag + 1) (Nat.min (left + 1) (up + 1))
    cur :: levRowAux bc as ptail cur

/-- Outer DP loop step of the client-side `levenshteinDistance`. -/
def levNextRow (a : List Char) (prev : List Nat) (bc : Char) : List Nat :=
  (prev.headD 0 + 1) :: levRowAux bc a prev (prev.headD 0 + 1)

/-- `LevenshteinTrieUser.levenshteinDistance`, embedded from the client
bundle. -/
def levenshteinDistance (a b : List Char) : Nat :=
  if a.length = 0 then b.length
  else if b.length = 0 then a.length
  else (b.foldl (levNextRow a) (List.range (a.length + 1))).getLastD 0

/-- `LevenshteinTrieUser._searchRecursiveWithData`, embedded from the client
bundle with the same fuel device as the build side. -/
def searchRecWithData :
    Nat → TrieNode → List Char → List Char → Nat → Int → List SearchResult
  | 0, _, _, _, _, _ => []
  | fuel + 1, node, currentWord, targetWord, currentIndex, maxDistance =>
    if currentIndex > targetWord.length ∧ node.isEndOfWord then
      [⟨currentWord, node.data⟩]
    else if maxDistance < 0 then
      []
    else
      (if node.isEndOfWord ∧ ((levenshteinDistance currentWord targetWord : Int) ≤ maxDistance)
        then [⟨currentWord, node.data⟩] else []) ++
      node.children.foldr
        (fun cn acc =>
          (if currentIndex < targetWord.length then
            if cn.1 = targetWord.getD currentIndex default then
              searchRecWithData fuel cn.2 (currentWord ++ [cn.1]) targetWord
                (currentIndex + 1) maxDistance
            else
              searchRecWithData fuel cn.2 (currentWord ++ [cn.1]) targetWord
                (currentIndex + 1) (maxDistance - 1) ++
              searchRecWithData fuel node currentWord targetWord
                (currentIndex + 1) (maxDistance - 1) ++
              searchRecWithData fuel cn.2 (currentWord ++ [cn.1]) targetWord
                currentIndex (maxDistance - 1)
          else
            searchRecWithData fuel cn.2 (currentWord ++ [cn.1]) targetWord
              currentIndex (maxDistance - 1)) ++ acc)
        []

/-- Fuel for the client-side search wrapper, chosen as on the build side. -/
def searchFuel (t : TrieNode) (targetWord : List Char) : Nat :=
  t.size * (targetWord.length + 1) + targetWord.length + 1

/-- `LevenshteinTrieUser.searchWithLevenshteinWithData`. -/
def searchWithLevenshteinWithData (t : TrieNode) (word : List Char) (maxDistance : Int) :
    List SearchResult :=
  searchRecWithData (searchFuel t word) t [] word 0 maxDistance

end UserTrie

/-- The two copies of the DP inner loop agree. -/
theorem userLevRowAux_eq (bc : Char) :
    ∀ (as : List Char) (prev : List Nat) (left : Nat),
    UserTrie.levRowAux bc as prev left = levRowAux bc as prev left := by
  intro as
  induction as with
  | nil => intro prev left; rfl
  | cons ac as ih =>
    intro prev left
    cases prev with
    | nil => rfl
    | cons pdiag ptail =>
      simp only [UserTrie.levRowAux, levRowAux]
      rw [ih]

/-- The two copies of `levenshteinDistance` agree. -/
theorem userLevenshteinDistance_eq :
    UserTrie.levenshteinDistance = levenshteinDistance := by
  funext a b
  have hrow : UserTrie.levNextRow a = levNextRow a := by
    funext prev bc
    simp only [UserTrie.levNextRow, levNextRow, userLevRowAux_eq]
  simp only [UserTrie.levenshteinDistance, levenshteinDistance, hrow]

/-- The two copies of `insertWithData` agree. -/
theorem userInsertWithData_eq :
    ∀ (w : List Char) (n : TrieNode) (x : Nat),
    UserTrie.insertWithData n w x = insertWithData n w x := by
  intro w
  induction w with
  | nil => intro n x; rfl
  | cons c cs ih =>
    intro n x
    simp only [UserTrie.insertWithData, insertWithData]
    cases mapGet n.children c with
    | some child => simp only [ih]
    | none => simp only [ih]

/-- The two copies of the recursive search agree at every fuel value. -/
theorem userSearchRec_eq (fuel : Nat) :
    ∀ (node : TrieNode) (w t : List Char) (idx : Nat) (d : Int),
    UserTrie.searchRecWithData fuel node w t idx d = searchRecWithData fuel node w t idx d := by
  induction fuel with
  | zero => intro node w t idx d; rfl
  | succ fuel ih =>
    intro node w t idx d
    simp only [UserTrie.searchRecWithData, searchRecWithData, userLevenshteinDistance_eq, ih]

/-- Claim C10: the build-side `LevenshteinTrie` and the client-side
`LevenshteinTrieUser` implement behaviourally identical search — for every
sequence of `insertWithData` calls replayed on each and for every query and
distance, the two `searchWithLevenshteinWithData` functions return the same
result sequence. -/
theorem C10_user_trie_equals_build_trie (ops : List (List Char × Nat))
    (q : List Char) (d : Int) :
    UserTrie.searchWithLevenshteinWithData (UserTrie.buildTrie ops) q d
      = searchWithLevenshteinWithData (buildTrie ops) q d := by
  have hbuild : UserTrie.buildTrie ops = buildTrie ops := by
    simp only [UserTrie.buildTrie, buildTrie, userInsertWithData_eq]
  rw [UserTrie.searchWithLevenshteinWithData, searchWithLevenshteinWithData, hbuild,
    userSearchRec_eq]
  rfl

/-! ### Highlight engine — `buildHighlightedText` (claims C4 and C7)

Embedded from the client bundle.  JS `text.slice(a, b)` on in-range indices is
`sliceCh`; the synthetic ellipsis marker is the three-character string "...".
`Array.prototype.sort` with the comparator `p1.start - p2.start` is a stable
sort by `start`, modelled by a stable insertion sort. -/

/-- One `{start, length}` occurrence span. -/
structure Position : Type where
  start : Nat
  length : Nat
deriving DecidableEq, Repr

/-- Segment kind: plain text or highlighted mark. -/
inductive SegKind : Type where
  | text
  | mark
deriving DecidableEq, Repr

/-- One `{type, text}` output segment. -/
structure Segment : Type where
  kind : SegKind
  text : List Char
deriving DecidableEq, Repr

/-- `text.slice(a, b)` for natural indices: characters from `a` (inclusive) to
`b` (exclusive), clamped; empty when `b ≤ a`. -/
def sliceCh (text : List Char) (a b : Nat) : List Char :=
  (text.drop a).take (b - a)

/-- The synthetic ellipsis marker appended or prepended to truncated
segments. -/
def ellipsis : List Char := ['.', '.', '.']

/-- `positions.filter((position) => position.length > 0 && position.start +
position.length <= textLength)`. -/
def validPositionsOf (textLength : Nat) (positions : List Position) : List Position :=
  positions.filter (fun p => 0 < p.length && p.start + p.length ≤ textLength)

/-- Insert a position into an already sorted list, after any position with a
strictly smaller or equal start (stability of the JS sort). -/
def insertPos (p : Position) : List Position → List Position
  | [] => [p]
  | q :: rest => if q.start < p.start ∨ q.start = p.start then q :: insertPos p rest
    else p :: q :: rest

/-- Stable sort of the valid positions by ascending `start`
(`sort((p1, p2) => p1.start - p2.start)`). -/
def sortByStart : List Position → List Position
  | [] => []
  | p :: rest => insertPos p (sortByStart rest)

/-- The context window: `{start: 0, end: textLength}`, narrowed around the
first position when a non-zero snippet length is exceeded by the text. -/
def rangeOf (textLength snippetLength : Nat) (firstPosition : Position) : Nat × Nat :=
  if snippetLength ≠ 0 ∧ snippetLength < textLength then
    (if firstPosition.start < snippetLength then 0 else firstPosition.start - snippetLength,
     if textLength < firstPosition.start + firstPosition.length + snippetLength then textLength
       else firstPosition.start + firstPosition.length + snippetLength)
  else (0, textLength)

/-- The loop over `positionsWithinRange`: an inter-mark text segment when
`lastEndPosition > 0`, then the mark segment, tracking `lastEndPosition`. -/
def emitPositions (text : List Char) : List Position → Nat → List Segment
  | [], _ => []
  | p :: rest, lastEnd =>
    (if 0 < lastEnd then [⟨.text, sliceCh text lastEnd p.start⟩] else []) ++
    [⟨.mark, sliceCh text p.start (p.start + p.length)⟩] ++
    emitPositions text rest (p.start + p.length)

/-- The value of `lastEndPosition` after the loop. -/
def lastEndD : List Position → Nat → Nat
  | [], e => e
  | p :: rest, _ => lastEndD rest (p.start + p.length)

/-- `orderedPositions`: the valid positions sorted ascending by start. -/
def sortedValid (text : List Char) (positions : List Position) : List Position :=
  sortByStart (validPositionsOf text.length positions)

/-- `firstPosition = orderedPositions[0]`. -/
def firstPositionOf (text : List Char) (positions : List Position) : Position :=
  (sortedValid text positions).headD ⟨0, 0⟩

/-- `range`, the context window around the first position. -/
def windowOf (text : List Char) (positions : List Position) (snippetLength : Nat) : Nat × Nat :=
  rangeOf text.length snippetLength (firstPositionOf text positions)

/-- `positionsWithinRange`: the ordered positions whose span lies inside the
window. -/
def inWindow (text : List Char) (positions : List Position) (snippetLength : Nat) :
    List Position :=
  (sortedValid text positions).filter
    (fun p => (windowOf text positions snippetLength).1 ≤ p.start &&
      p.start + p.length ≤ (windowOf text positions snippetLength).2)

/-- `buildHighlightedText (text, positions, snippetLength)` from the client
bundle: the no-valid-position snippet, or the leading text segment (with
ellipsis marker when the window start was clamped), the mark/text segments of
the in-window positions, and the trailing text segment (with ellipsis marker
when the window end precedes the text end). -/
def buildHighlightedText (text : List Char) (positions : List Position)
    (snippetLength : Nat) : List Segment :=
  if validPositionsOf text.length positions = [] then
    [⟨.text, sliceCh text 0 (if text.length ≤ snippetLength then text.length else snippetLength)
      ++ (if snippetLength < text.length then ellipsis else [])⟩]
  else
    (if 0 < (firstPositionOf text positions).start then
      [⟨.text, (if 0 < (windowOf text positions snippetLength).1 then ellipsis else []) ++
        sliceCh text (windowOf text positions snippetLength).1
          (firstPositionOf text positions).start⟩]
      else []) ++
    emitPositions text (inWindow text positions snippetLength) 0 ++
    (if lastEndD (inWindow text positions snippetLength) 0
        < (windowOf text positions snippetLength).2 then
      [⟨.text, sliceCh text (lastEndD (inWindow text positions snippetLength) 0)
          (windowOf text positions snippetLength).2 ++
        (if (windowOf text positions snippetLength).2 < text.length then ellipsis else [])⟩]
      else [])

/-- Concatenation of the text fields of a segment list. -/
def segsText (segments : List Segment) : List Char :=
  segments.foldr (fun s acc => s.text ++ acc) []

/-! ### Highlighter lemmas -/

theorem segsText_nil : segsText [] = [] := rfl

theorem segsText_cons (s : Segment) (rest : List Segment) :
    segsText (s :: rest) = s.text ++ segsText rest := rfl

theorem segsText_append (s1 s2 : List Segment) :
    segsText (s1 ++ s2) = segsText s1 ++ segsText s2 := by
  induction s1 with
  | nil => simp [segsText_nil]
  | cons x l ih => simp only [List.cons_append, segsText_cons, ih, List.append_assoc]

/-- Adjacent slices glue seamlessly. -/
theorem sliceCh_append (text : List Char) (a b c : Nat) (hab : a ≤ b) (hbc : b ≤ c) :
    sliceCh text a b ++ sliceCh text b c = sliceCh text a c := by
  simp only [sliceCh]
  have h1 : c - a = (b - a) + (c - b) := by omega
  have h2 : (text.drop a).drop (b - a) = text.drop b := by
    rw [List.drop_drop]
    congr 1
    omega
  rw [h1, List.take_add, h2]

theorem sliceCh_self (text : List Char) (a : Nat) : sliceCh text a a = [] := by
  simp [sliceCh]

theorem mem_insertPos (p q : Position) :
    ∀ (l : List Position), q ∈ insertPos p l ↔ q = p ∨ q ∈ l := by
  intro l
  induction l with
  | nil => simp [insertPos]
  | cons r rest ih =>
    by_cases hc : r.start < p.start ∨ r.start = p.start
    · simp only [insertPos, if_pos hc, List.mem_cons, ih]
      tauto
    · simp only [insertPos, if_neg hc, List.mem_cons]

theorem mem_sortByStart (q : Position) :
    ∀ (l : List Position), q ∈ sortByStart l ↔ q ∈ l := by
  intro l
  induction l with
  | nil => simp [sortByStart]
  | cons p rest ih =>
    simp only [sortByStart, mem_insertPos, ih, List.mem_cons]

theorem insertPos_ne_nil (p : Position) (l : List Position) : insertPos p l ≠ [] := by
  cases l with
  | nil => simp [insertPos]
  | cons r rest =>
    simp only [insertPos]
    split_ifs <;> simp

theorem sortByStart_ne_nil {l : List Position} (h : l ≠ []) : sortByStart l ≠ [] := by
  cases l with
  | nil => exact absurd rfl h
  | cons p rest => exact insertPos_ne_nil p (sortByStart rest)

/-- The final `lastEndPosition` can only move right. -/
theorem lastEndD_ge (ps : List Position) :
    ∀ e, (∀ q ∈ ps, e ≤ q.start) →
    ps.Pairwise (fun p q => p.start + p.length ≤ q.start) → e ≤ lastEndD ps e := by
  induction ps with
  | nil => intro e _ _; exact le_refl e
  | cons p rest ih =>
    intro e hge hpair
    have h1 : e ≤ p.start := hge p (List.mem_cons_self p rest)
    have h2 := List.pairwise_cons.1 hpair
    simp only [lastEndD]
    have h3 := ih (p.start + p.length) h2.1 h2.2
    omega

/-- The final `lastEndPosition` stays below any bound dominating all spans. -/
theorem lastEndD_le (ps : List Position) (bound : Nat) :
    ∀ e, e ≤ bound → (∀ q ∈ ps, q.start + q.length ≤ bound) → lastEndD ps e ≤ bound := by
  induction ps with
  | nil => intro e he _; exact he
  | cons p rest ih =>
    intro e _ hsp
    simp only [lastEndD]
    exact ih _ (hsp p (List.mem_cons_self p rest)) (fun q hq => hsp q (List.mem_cons_of_mem p hq))

/-- Concatenating the loop's segments, from a positive `lastEndPosition`,
reproduces the text slice from it to the final `lastEndPosition`, when the
positions are ahead of it, non-empty, and pairwise non-overlapping. -/
theorem emitPositions_segsText (text : List Char) :
    ∀ (ps : List Position) (e : Nat), 0 < e →
    (∀ q ∈ ps, 0 < q.length) →
    (∀ q ∈ ps, e ≤ q.start) →
    ps.Pairwise (fun p q => p.start + p.length ≤ q.start) →
    segsText (emitPositions text ps e) = sliceCh text e (lastEndD ps e) := by
  intro ps
  induction ps with
  | nil =>
    intro e _ _ _ _
    simp [emitPositions, lastEndD, sliceCh_self, segsText_nil]
  | cons p rest ih =>
    intro e he hval hge hpair
    have h2 := List.pairwise_cons.1 hpair
    have hplen : 0 < p.length := hval p (List.mem_cons_self p rest)
    have hps : e ≤ p.start := hge p (List.mem_cons_self p rest)
    simp only [emitPositions, if_pos he, lastEndD]
    rw [segsText_append, segsText_append, segsText_cons, segsText_nil, segsText_cons,
      segsText_nil, List.append_nil, List.append_nil]
    rw [ih (p.start + p.length) (by omega)
      (fun q hq => hval q (List.mem_cons_of_mem p hq)) h2.1 h2.2]
    have hL := lastEndD_ge rest (p.start + p.length) h2.1 h2.2
    rw [List.append_assoc, sliceCh_append text p.start (p.start + p.length) _ (by omega) hL,
      sliceCh_append text e p.start _ hps (by omega)]

theorem rangeOf_start_le (len snip : Nat) (p : Position) :
    (rangeOf len snip p).1 ≤ p.start := by
  rw [rangeOf]
  by_cases h1 : snip ≠ 0 ∧ snip < len
  · rw [if_pos h1]
    show (if p.start < snip then 0 else p.start - snip) ≤ p.start
    split_ifs <;> omega
  · rw [if_neg h1]
    exact Nat.zero_le _

theorem rangeOf_le_end (len snip : Nat) (p : Position) (h : p.start + p.length ≤ len) :
    p.start + p.length ≤ (rangeOf len snip p).2 := by
  rw [rangeOf]
  by_cases h1 : snip ≠ 0 ∧ snip < len
  · rw [if_pos h1]
    show p.start + p.length ≤
      if len < p.start + p.length + snip then len else p.start + p.length + snip
    split_ifs <;> omega
  · rw [if_neg h1]
    exact h

/-- Every position surviving the validity filter has a positive length and a
span inside the text. -/
theorem valid_of_mem_sortedValid (text : List Char) (positions : List Position)
    (q : Position) (hq : q ∈ sortedValid text positions) :
    0 < q.length ∧ q.start + q.length ≤ text.length := by
  rw [sortedValid, mem_sortByStart, validPositionsOf, List.mem_filter] at hq
  have := hq.2
  simp at this
  exact this

/-- Claim C7: when no position is valid (empty list, zero-length spans, or
spans out of bounds), `buildHighlightedText` returns exactly one text segment
whose un-ellipsized content is the first `min(snippetLength, |text|)`
characters of the text, with a trailing ellipsis marker appended if and only
if `snippetLength < |text|`. -/
theorem C7_snippet_when_no_valid_position (text : List Char) (positions : List Position)
    (snip : Nat) (h : validPositionsOf text.length positions = []) :
    buildHighlightedText text positions snip =
      [⟨.text, text.take (min snip text.length) ++
        (if snip < text.length then ellipsis else [])⟩] := by
  rw [buildHighlightedText, if_pos h]
  have hslice : sliceCh text 0 (if text.length ≤ snip then text.length else snip)
      = text.take (min snip text.length) := by
    simp only [sliceCh, List.drop_zero, Nat.sub_zero]
    by_cases hc : text.length ≤ snip
    · rw [if_pos hc, min_eq_right hc]
    · rw [if_neg hc, min_eq_left (by omega)]
  rw [hslice]

/-- Witness for claim C7 at a concrete instance: a single zero-length
position is filtered out, and the 12-character text is cut to the first 5
characters plus the ellipsis marker. -/
theorem C7_snippet_when_no_valid_position_witness :
    validPositionsOf ("hello world!".data).length [⟨5, 0⟩] = [] ∧
      buildHighlightedText "hello world!".data [⟨5, 0⟩] 5 =
        [⟨.text, ("hello world!".data).take (min 5 ("hello world!".data).length) ++
          (if 5 < ("hello world!".data).length then ellipsis else [])⟩] :=
  ⟨by decide, C7_snippet_when_no_valid_position "hello world!".data [⟨5, 0⟩] 5 (by decide)⟩

/-- Counterexample to claim C4 (concatenation invariant): with the
overlapping in-bounds positions (0,2) and (1,2) over "abcd", the window is the
whole text, no ellipsis markers are produced, and the concatenation of the
returned segments is "abbcd" — the character b is duplicated — instead of the
window slice "abcd". -/
theorem C4_concat_invariant_counterexample :
    segsText (buildHighlightedText "abcd".data [⟨0, 2⟩, ⟨1, 2⟩] 100) = "abbcd".data ∧
      windowOf "abcd".data [⟨0, 2⟩, ⟨1, 2⟩] 100 = (0, 4) ∧
      "abbcd".data ≠ sliceCh "abcd".data 0 4 := by
  refine ⟨by decide, by decide, by decide⟩

/-- Claim C4, amended: the concatenation invariant holds provided the valid
positions are pairwise non-overlapping (in sorted order every span ends at or
before the next one starts): the concatenation of all segment texts is the
window slice of the text, preceded by an ellipsis marker exactly when the
window start is clamped above 0, and followed by one exactly when a trailing
text segment exists (the last in-window span ends before the window end) and
the window end is below the text length. -/
theorem C4_concat_reproduces_window (text : List Char) (positions : List Position)
    (snip : Nat) (hvp : validPositionsOf text.length positions ≠ [])
    (hdisj : (sortedValid text positions).Pairwise
      (fun p q => p.start + p.length ≤ q.start)) :
    segsText (buildHighlightedText text positions snip) =
      (if 0 < (windowOf text positions snip).1 then ellipsis else []) ++
      sliceCh text (windowOf text positions snip).1 (windowOf text positions snip).2 ++
      (if lastEndD (inWindow text positions snip) 0 < (windowOf text positions snip).2 ∧
          (windowOf text positions snip).2 < text.length
        then ellipsis else []) := by
  obtain ⟨first, srest, hsv⟩ :=
    List.exists_cons_of_ne_nil (sortByStart_ne_nil (l := validPositionsOf text.length positions) hvp)
  have hfirst : firstPositionOf text positions = first := by
    rw [firstPositionOf, sortedValid, hsv]
    rfl
  have hfv : 0 < first.length ∧ first.start + first.length ≤ text.length :=
    valid_of_mem_sortedValid text positions first
      (by rw [sortedValid, hsv]; exact List.mem_cons_self _ _)
  have hr1 : (windowOf text positions snip).1 ≤ first.start := by
    rw [windowOf, hfirst]
    exact rangeOf_start_le _ _ _
  have hr2 : first.start + first.length ≤ (windowOf text positions snip).2 := by
    rw [windowOf, hfirst]
    exact rangeOf_le_end _ _ _ hfv.2
  have hpw : inWindow text positions snip =
      first :: srest.filter (fun p => (windowOf text positions snip).1 ≤ p.start &&
        p.start + p.length ≤ (windowOf text positions snip).2) := by
    rw [inWindow, sortedValid, hsv, List.filter_cons]
    rw [if_pos (by simp only [Bool.and_eq_true, decide_eq_true_eq]; exact ⟨hr1, hr2⟩)]
  have hpair_pw : (inWindow text positions snip).Pairwise
      (fun p q => p.start + p.length ≤ q.start) :=
    hdisj.sublist (List.filter_sublist _)
  have hvalid_pw : ∀ q ∈ inWindow text positions snip,
      0 < q.length ∧ q.start + q.length ≤ text.length := by
    intro q hq
    rw [inWindow, List.mem_filter] at hq
    exact valid_of_mem_sortedValid text positions q hq.1
  have hends_pw : ∀ q ∈ inWindow text positions snip,
      q.start + q.length ≤ (windowOf text positions snip).2 := by
    intro q hq
    rw [inWindow, List.mem_filter] at hq
    have := hq.2
    simp at this
    exact this.2
  rw [buildHighlightedText, if_neg hvp]
  rw [segsText_append, segsText_append]
  rw [hpw] at hpair_pw hvalid_pw hends_pw ⊢
  set w1 := (windowOf text positions snip).1 with hw1
  set w2 := (windowOf text positions snip).2 with hw2
  set rest2 := srest.filter (fun p => w1 ≤ p.start && p.start + p.length ≤ w2) with hrest2
  have hpairc := List.pairwise_cons.1 hpair_pw
  -- the loop part
  have hmid : segsText (emitPositions text (first :: rest2) 0) =
      sliceCh text first.start (lastEndD (first :: rest2) 0) := by
    simp only [emitPositions, lastEndD]
    rw [if_neg (lt_irrefl 0), List.nil_append, segsText_append, segsText_cons, segsText_nil,
      List.append_nil]
    rw [emitPositions_segsText text rest2 (first.start + first.length) (by have := hfv.1; omega)
      (fun q hq => (hvalid_pw q (List.mem_cons_of_mem first hq)).1) hpairc.1 hpairc.2]
    have hL := lastEndD_ge rest2 (first.start + first.length) hpairc.1 hpairc.2
    exact sliceCh_append text first.start (first.start + first.length) _ (by omega) hL
  rw [hmid]
  -- the leading part
  have hlead : segsText (if 0 < (firstPositionOf text positions).start then
      [⟨.text, (if 0 < w1 then ellipsis else []) ++
        sliceCh text w1 (firstPositionOf text positions).start⟩] else []) =
      (if 0 < w1 then ellipsis else []) ++ sliceCh text w1 first.start := by
    rw [hfirst]
    by_cases hf0 : 0 < first.start
    · rw [if_pos hf0, segsText_cons, segsText_nil, List.append_nil]
    · have hfs : first.start = 0 := by omega
      have hw10 : w1 = 0 := by omega
      rw [if_neg hf0, hfs, hw10, sliceCh_self]
      simp [segsText_nil]
  rw [hlead]
  -- the trailing part
  have hLle : lastEndD (first :: rest2) 0 ≤ w2 :=
    lastEndD_le (first :: rest2) w2 0 (Nat.zero_le w2) hends_pw
  have hLge : first.start ≤ lastEndD (first :: rest2) 0 := by
    simp only [lastEndD]
    have := lastEndD_ge rest2 (first.start + first.length) hpairc.1 hpairc.2
    omega
  have htrail : segsText (if lastEndD (first :: rest2) 0 < w2 then
      [⟨.text, sliceCh text (lastEndD (first :: rest2) 0) w2 ++
        (if w2 < text.length then ellipsis else [])⟩] else []) =
      sliceCh text (lastEndD (first :: rest2) 0) w2 ++
        (if lastEndD (first :: rest2) 0 < w2 ∧ w2 < text.length then ellipsis else []) := by
    by_cases hL : lastEndD (first :: rest2) 0 < w2
    · rw [if_pos hL, segsText_cons, segsText_nil, List.append_nil]
      by_cases hw2 : w2 < text.length
      · rw [if_pos hw2, if_pos ⟨hL, hw2⟩]
      · rw [if_neg hw2, if_neg (by tauto)]
    · have hLeq : lastEndD (first :: rest2) 0 = w2 := by omega
      rw [if_neg hL, segsText_nil, hLeq, sliceCh_self, if_neg (by omega), List.nil_append]
  rw [htrail]
  rw [List.append_assoc, List.append_assoc, ← List.append_assoc (sliceCh text w1 first.start),
    sliceCh_append text w1 first.start _ hr1 hLge,
    ← List.append_assoc (sliceCh text w1 (lastEndD (first :: rest2) 0)),
    sliceCh_append text w1 _ w2 (le_trans hr1 hLge) hLle]
  simp [List.append_assoc]

/-- Witness for the amended claim C4 at a concrete instance: a single
position over a long text with a narrow snippet window produces a clamped
window with both ellipsis markers. -/
theorem C4_concat_reproduces_window_witness :
    validPositionsOf ("abcdefghijklmnopqrstuvwxyz".data).length [⟨10, 3⟩] ≠ [] ∧
      (sortedValid "abcdefghijklmnopqrstuvwxyz".data [⟨10, 3⟩]).Pairwise
        (fun p q => p.start + p.length ≤ q.start) ∧
      segsText (buildHighlightedText "abcdefghijklmnopqrstuvwxyz".data [⟨10, 3⟩] 5) =
        (if 0 < (windowOf "abcdefghijklmnopqrstuvwxyz".data [⟨10, 3⟩] 5).1 then ellipsis
          else []) ++
        sliceCh "abcdefghijklmnopqrstuvwxyz".data
          (windowOf "abcdefghijklmnopqrstuvwxyz".data [⟨10, 3⟩] 5).1
          (windowOf "abcdefghijklmnopqrstuvwxyz".data [⟨10, 3⟩] 5).2 ++
        (if lastEndD (inWindow "abcdefghijklmnopqrstuvwxyz".data [⟨10, 3⟩] 5) 0
            < (windowOf "abcdefghijklmnopqrstuvwxyz".data [⟨10, 3⟩] 5).2 ∧
            (windowOf "abcdefghijklmnopqrstuvwxyz".data [⟨10, 3⟩] 5).2
              < ("abcdefghijklmnopqrstuvwxyz".data).length
          then ellipsis else []) :=
  ⟨by decide, by decide,
    C4_concat_reproduces_window "abcdefghijklmnopqrstuvwxyz".data [⟨10, 3⟩] 5
      (by decide) (by decide)⟩

/-! ### Client query orchestration — `searchIndex` from src/data/js/index.js (claim C3) -/

/-- JS truthiness of an array value: an array object is always truthy, even
when empty, so `!trieResults` is false for `[]`. -/
def jsArrayTruthy {α : Type} (_ : List α) : Bool := true

/-- The `Set` of document ids accumulated from the trie results in insertion
order (`trieResults.forEach((r) => r.data.forEach((d) => trieDocIds.add(d)))`). -/
def trieDocIdsOf (trieResults : List SearchResult) : List Nat :=
  trieResults.foldl
    (fun acc r => r.data.foldl (fun acc2 d => if d ∈ acc2 then acc2 else acc2 ++ [d]) acc) []

/-- Which lunr search `searchIndex` ends up running. -/
inductive LunrSearchSource : Type where
  | fullStore
  | scopedTo (docIds : List Nat)
  | skipped
deriving DecidableEq, Repr

/-- The decision structure of `searchIndex` once `trieResults` is computed:
`if (!trieResults)` would fall back to the full store, but a JS array is
always truthy so that guard never fires; otherwise, with at least one
candidate id, the search runs against the temporary index scoped to the
candidate documents (`filteredDocuments` receives one push per id, making the
inner length check equivalent); with no candidate ids, `lunrResults` keeps
its initial `[]` and no lunr search is performed at all. -/
def searchIndexSource (trieResults : List SearchResult) : LunrSearchSource :=
  if jsArrayTruthy trieResults = false then .fullStore
  else
    let trieDocIds := trieDocIdsOf trieResults
    if 0 < trieDocIds.length then
      let filteredDocuments := trieDocIds
      if 0 < filteredDocuments.length then .scopedTo trieDocIds else .fullStore
    else .skipped

/-- Claim C3 fails on the code: over a store whose trie indexes the title
"foo" for document 1, the query "zzzz" probed at max edit distance 3 yields no
trie hits, and `searchIndex` then performs no search at all — the
`!trieResults` guard can never fire because a JS array is truthy even when
empty, so the fallback to a direct search of the full document store is dead
code and the empty candidate-id set short-circuits to an empty result. -/
theorem C3_no_trie_hits_skips_search :
    searchWithLevenshteinWithData (buildTrie [("foo".data, 1)]) "zzzz".data 3 = [] ∧
      searchIndexSource
        (searchWithLevenshteinWithData (buildTrie [("foo".data, 1)]) "zzzz".data 3)
        = .skipped ∧
      LunrSearchSource.skipped ≠ LunrSearchSource.fullStore := by
  refine ⟨by decide, by decide, by decide⟩

/-! ### Query escalation — `search` from src/data/js/index.js (claim C8) -/

/-- One parsed lunr query clause, restricted to the fields the escalation
reads or writes. -/
structure Clause : Type where
  term : String
  presence : Nat
  wildcard : Nat
  usePipeline : Bool
deriving DecidableEq, Repr

/-- `lunr.Query.presence.PROHIBITED`. -/
def presencePROHIBITED : Nat := 3

/-- `lunr.Query.wildcard.LEADING`. -/
def wildcardLEADING : Nat := 1

/-- `lunr.Query.wildcard.TRAILING`. -/
def wildcardTRAILING : Nat := 2

/-- The stage-(b) clause mutation: every non-prohibited clause gets a
trailing `*` appended to its term, the TRAILING wildcard flag, and its
pipeline disabled.  The clause objects are shared with the parsed query, so
this mutation is still in place at stage (c). -/
def beginsWithClause (c : Clause) : Clause :=
  if c.presence ≠ presencePROHIBITED then
    { c with term := c.term ++ "*", wildcard := wildcardTRAILING, usePipeline := false }
  else c

/-- The stage-(c) clause mutation as written: wrap the clause's current term
(already suffixed by stage (b)) in leading and trailing wildcards. -/
def containsClause (c : Clause) : Clause :=
  if c.presence ≠ presencePROHIBITED then
    { c with
      term := "*" ++ c.term ++ "*", wildcard := (wildcardLEADING ||| wildcardTRAILING),
      usePipeline := false }
  else c

/-- Modelled from the spec's words for stage (c) of claim C8 (for comparison
with the code): every non-prohibited term — the term as originally typed —
wrapped in leading and trailing wildcards. -/
def specStageCClauses (clauses : List Clause) : List Clause :=
  clauses.map (fun c =>
    if c.presence ≠ presencePROHIBITED then
      { c with
        term := "*" ++ c.term ++ "*", wildcard := (wildcardLEADING ||| wildcardTRAILING),
        usePipeline := false }
    else c)

/-- The client `search` function: run the query exactly as typed; on zero
results reissue with trailing wildcards; on zero results again reissue with
leading and trailing wildcards, the facet filter `φ` applied around every
stage.  The inverted-index engine is external and abstracted as `runQuery`
on clause lists. -/
def searchEscalation {R : Type} (runQuery : List Clause → List R) (φ : List R → List R)
    (clauses : List Clause) : List R :=
  let result := φ (runQuery clauses)
  if 0 < result.length then result
  else
    let clauses2 := clauses.map beginsWithClause
    let result2 := φ (runQuery clauses2)
    if 0 < result2.length then result2
    else φ (runQuery (clauses2.map containsClause))

/-- Counterexample to claim C8: with the single non-prohibited clause "foo",
the stage-(c) query issued by the code carries the term "*foo**" — the
trailing wildcard added by stage (b) is still inside the term when it is
wrapped — not the claimed "*foo*"; an index that matches exactly the claimed
stage-(c) clause list therefore returns nothing through `search`. -/
theorem C8_escalation_counterexample :
    (([(⟨"foo", 1, 0, true⟩ : Clause)].map beginsWithClause).map containsClause)
        = [⟨"*foo**", 1, 3, false⟩] ∧
      specStageCClauses [⟨"foo", 1, 0, true⟩] = [⟨"*foo*", 1, 3, false⟩] ∧
      searchEscalation
          (fun cs => if cs = specStageCClauses [⟨"foo", 1, 0, true⟩] then [1] else ([] : List Nat))
          id [⟨"foo", 1, 0, true⟩] = [] := by
  refine ⟨by decide, by decide, by decide⟩

/-- Claim C8, amended: the escalation runs the query as typed and stops at
the first stage yielding results (after facet filtering), escalating to the
trailing-wildcard form and then to the wrapped form; prohibited clauses are
never altered at any stage; but stage (c) wraps the term already mutated by
stage (b), so a non-prohibited term `t` is issued as `t*` at stage (b) and as
`*t**` (not `*t*`) at stage (c). -/
theorem C8_escalation_amended {R : Type} (runQuery : List Clause → List R)
    (φ : List R → List R) (clauses : List Clause) :
    (searchEscalation runQuery φ clauses =
      (if 0 < (φ (runQuery clauses)).length then φ (runQuery clauses)
       else if 0 < (φ (runQuery (clauses.map beginsWithClause))).length then
         φ (runQuery (clauses.map beginsWithClause))
       else φ (runQuery ((clauses.map beginsWithClause).map containsClause)))) ∧
    (∀ c : Clause, c.presence = presencePROHIBITED →
      beginsWithClause c = c ∧ containsClause c = c) ∧
    (∀ c : Clause, c.presence ≠ presencePROHIBITED →
      (beginsWithClause c).term = c.term ++ "*" ∧
      (containsClause (beginsWithClause c)).term = "*" ++ (c.term ++ "*") ++ "*") := by
  refine ⟨rfl, ?_, ?_⟩
  · intro c hc
    refine ⟨?_, ?_⟩
    · rw [beginsWithClause, if_neg (not_not_intro hc)]
    · rw [containsClause, if_neg (not_not_intro hc)]
  · intro c hc
    refine ⟨?_, ?_⟩
    · rw [beginsWithClause, if_pos hc]
    · rw [beginsWithClause, if_pos hc, containsClause, if_pos hc]

/-- Witness for the amended claim C8 at concrete clauses: a prohibited clause
is untouched, and the non-prohibited term "foo" is issued as "*foo**" at
stage (c). -/
theorem C8_escalation_amended_witness :
    (beginsWithClause ⟨"bar", presencePROHIBITED, 0, true⟩
        = ⟨"bar", presencePROHIBITED, 0, true⟩) ∧
      (containsClause (beginsWithClause ⟨"foo", 1, 0, true⟩)).term
        = "*" ++ ("foo" ++ "*") ++ "*" :=
  ⟨((C8_escalation_amended (fun _ => ([] : List Nat)) id []).2.1
      ⟨"bar", presencePROHIBITED, 0, true⟩ rfl).1,
    ((C8_escalation_amended (fun _ => ([] : List Nat)) id []).2.2
      ⟨"foo", 1, 0, true⟩ (by decide)).2⟩

/-! ### Index builder id assignment — `generateIndex` (claim C9) -/

/-- The per-page facts the builder's selection and id assignment read. -/
structure Page : Type where
  hasOut : Bool
  noindexAttr : Bool
  robotsNoindex : Bool
  isLatest : Bool
deriving DecidableEq, Repr

/-- The `contentCatalog.getPages` predicate: the page must have a publish
target and no noindex attribute, and under `indexLatestOnly` must belong to
the latest component version. -/
def selectPages (indexLatestOnly : Bool) (pages : List Page) : List Page :=
  pages.filter (fun p => p.hasOut && !p.noindexAttr && (!indexLatestOnly || p.isLatest))

/-- The reduce over the selected pages: starting from `id = 1`, a page whose
markup carries the robots noindex meta tag is dropped without touching the id
counter; every other page receives the current id, which is post-incremented. -/
def assignIds : Nat → List Page → List (Nat × Page)
  | _, [] => []
  | id, p :: rest =>
    if p.robotsNoindex then assignIds id rest
    else (id, p) :: assignIds (id + 1) rest

/-- The documents emitted by `generateIndex`, paired with their assigned ids. -/
def generateDocuments (indexLatestOnly : Bool) (pages : List Page) : List (Nat × Page) :=
  assignIds 1 (selectPages indexLatestOnly pages)

/-- The ids handed out by the counter are consecutive from its start value. -/
theorem assignIds_ids (ps : List Page) :
    ∀ start, (assignIds start ps).map Prod.fst
      = List.range' start (assignIds start ps).length := by
  induction ps with
  | nil => intro start; rfl
  | cons p rest ih =>
    intro start
    by_cases hp : p.robotsNoindex
    · simp only [assignIds, if_pos hp]
      exact ih start
    · simp only [assignIds, if_neg hp, List.map_cons, List.length_cons]
      rw [List.range'_succ]
      congr 1
      exact ih (start + 1)

/-- A page reaching the id counter was selected and not robots-noindexed. -/
theorem assignIds_mem (ps : List Page) :
    ∀ (start : Nat) (pr : Nat × Page), pr ∈ assignIds start ps →
      pr.2 ∈ ps ∧ pr.2.robotsNoindex = false := by
  induction ps with
  | nil => intro start pr h; simp [assignIds] at h
  | cons p rest ih =>
    intro start pr h
    by_cases hp : p.robotsNoindex
    · rw [assignIds, if_pos hp] at h
      obtain ⟨h1, h2⟩ := ih start pr h
      exact ⟨List.mem_cons_of_mem p h1, h2⟩
    · rw [assignIds, if_neg hp] at h
      rcases List.mem_cons.1 h with h1 | h1
      · refine ⟨?_, ?_⟩
        · rw [h1]
          exact List.mem_cons_self p rest
        · rw [h1]
          simpa using hp
      · obtain ⟨h2, h3⟩ := ih (start + 1) pr h1
        exact ⟨List.mem_cons_of_mem p h2, h3⟩

/-- Claim C9: the document ids assigned by the index builder are dense
consecutive integers starting at 1 over the surviving documents, with no
gaps; a page excluded by the noindex attribute (or without a publish target,
or superseded under `indexLatestOnly`) never reaches the counter, and a page
excluded by the robots noindex meta tag is skipped without consuming an id. -/
theorem C9_ids_dense_from_one (indexLatestOnly : Bool) (pages : List Page) :
    (generateDocuments indexLatestOnly pages).map Prod.fst
      = List.range' 1 (generateDocuments indexLatestOnly pages).length ∧
    ∀ pr ∈ generateDocuments indexLatestOnly pages,
      pr.2.hasOut = true ∧ pr.2.noindexAttr = false ∧ pr.2.robotsNoindex = false := by
  refine ⟨assignIds_ids _ 1, ?_⟩
  intro pr hpr
  obtain ⟨h1, h2⟩ := assignIds_mem _ 1 pr hpr
  rw [selectPages, List.mem_filter] at h1
  have := h1.2
  simp at this
  exact ⟨this.1.1, this.1.2, h2⟩

end AntoraLunr
